import Mathlib

/-!
Verification of the filesystem gateway of `hass-codemirror`
(`custom_components/blueprint_studio/file_manager.py` together with the
path utilities and constants of `custom_components/code_mirror/util.py`
and `custom_components/code_mirror/const.py`).

Modelling conventions:

* Paths are lists of segments (`List String`); a relative path string is
  parsed the way `pathlib` does (spurious slashes and single-dot segments
  collapse at construction, `..` survives and is handled by `resolve`).
* `Path.resolve()` consults the OS (it follows symlinks), so the safety
  functions are parametrised by an arbitrary canonicalization function
  `resolveFn`; `resolveLexical` is its instantiation on a symlink-free
  filesystem, where resolution is purely lexical.
* The sandboxed tree is the first-order inductive `FS`: the contents of a
  directory as the sibling sequence `os.scandir`/`os.walk` enumerates,
  each regular file carrying its byte size and its textual content.
* Python `sorted` is modelled by a stable insertion sort (`pySorted`),
  Python string comparison by code-point lexicographic order (`pyStrLe`),
  and the string helpers (`split`, `strip`, `startswith`, `Path.suffix`)
  are translated character-wise so that everything evaluates.
* Compiled regular expressions and `fnmatch` are library calls in the
  source; they enter the model as opaque boolean-valued parameters
  (`psearch`, `psubn`, `fnm`), instantiated with literal-string matchers
  in the concrete witnesses.
* `time.time()` is an integer parameter `now`; the worker pools of
  search/replace are pure fan-out (each file is processed independently
  and the aggregation is modelled on the per-file result lists).
-/

namespace HassCM

/-- Directory names pruned from every walk (`EXCLUDED_PATTERNS` in `const.py`). -/
def EXCLUDED_PATTERNS : List String :=
  ["__pycache__", ".git", ".cache", "deps", "tts", ".git_credential_helper"]

/-- Paths that must not be deleted or replaced (`PROTECTED_PATHS` in `const.py`). -/
def PROTECTED_PATHS : List String :=
  ["configuration.yaml", "secrets.yaml", "home-assistant.log", ".storage"]

/-- File extensions allowed for editing (`ALLOWED_EXTENSIONS` in `const.py`). -/
def ALLOWED_EXTENSIONS : List String :=
  [".yaml", ".yml", ".json", ".py", ".js", ".css", ".html", ".txt", ".csv",
   ".md", ".conf", ".cfg", ".ini", ".sh", ".log", ".gitignore", ".jinja", ".jinja2", ".j2",
   ".db", ".sqlite",
   ".pem", ".crt", ".key", ".der", ".bin", ".ota", ".cpp", ".h", ".tar", ".gz",
   ".lock",
   ".jpg", ".jpeg", ".png", ".gif", ".bmp", ".svg", ".webp", ".ico",
   ".pdf", ".zip",
   ".mp4", ".webm", ".mov", ".avi", ".mkv", ".flv", ".wmv", ".m4v"]

/-- Binary extensions, transferred base64-encoded (`BINARY_EXTENSIONS` in `const.py`). -/
def BINARY_EXTENSIONS : List String :=
  [".jpg", ".jpeg", ".png", ".gif", ".bmp", ".webp", ".ico", ".pdf", ".zip",
   ".db", ".sqlite",
   ".der", ".bin", ".ota", ".tar", ".gz",
   ".mp4", ".webm", ".mov", ".avi", ".mkv", ".flv", ".wmv", ".m4v"]

/-- Extensionless filenames that are still allowed (`ALLOWED_FILENAMES` in `const.py`). -/
def ALLOWED_FILENAMES : List String :=
  [".gitignore", ".ha_run.lock"]

/-! ### String helpers translated from the Python built-ins -/

/-- Python `path.lstrip("/")`: drop every leading separator character. -/
def pyLstripSlash (s : String) : String :=
  ⟨s.data.dropWhile (fun c => c = '/')⟩

/-- Python `path.strip("/")`: drop leading and trailing separator characters. -/
def pyStripSlash (s : String) : String :=
  ⟨((s.data.dropWhile (fun c => c = '/')).reverse.dropWhile (fun c => c = '/')).reverse⟩

/-- ASCII whitespace for `str.strip()`. -/
def pyIsSpace (c : Char) : Bool :=
  c = ' ' || c = '\t' || c = '\n' || c = '\r'

/-- Python `str.strip()` (no argument): drop surrounding whitespace. -/
def pyStripWS (s : String) : String :=
  ⟨((s.data.dropWhile pyIsSpace).reverse.dropWhile pyIsSpace).reverse⟩

/-- Split a character list on a separator character, keeping empty pieces,
exactly like Python `str.split(sep)` with a one-character separator. -/
def splitCharAux (sep : Char) (cur : List Char) : List Char → List (List Char)
  | [] => [cur.reverse]
  | c :: cs =>
    if c = sep then cur.reverse :: splitCharAux sep [] cs
    else splitCharAux sep (c :: cur) cs

/-- Python `str.split(sep)` for a one-character separator. -/
def splitChar (sep : Char) (s : String) : List String :=
  (splitCharAux sep [] s.data).map (fun l => ⟨l⟩)

/-- Python `name.startswith(".")`: the first character is a dot. -/
def hiddenName (s : String) : Bool :=
  match s.data with
  | [] => false
  | c :: _ => c = '.'

/-- Index of the last dot in a character list, if any. -/
def lastDotIdx : List Char → Option Nat
  | [] => none
  | c :: cs =>
    match lastDotIdx cs with
    | some i => some (i + 1)
    | none => if c = '.' then some 0 else none

/-- pathlib `Path.suffix` of a file name: the substring from the last dot,
empty when the name has no dot, starts with its only dot, or ends in a dot. -/
def pySuffix (name : String) : String :=
  match lastDotIdx name.data with
  | some i => if 0 < i ∧ i + 1 < name.data.length then ⟨name.data.drop i⟩ else ""
  | none => ""

/-- Python `str.lower()` (character-wise, as used on extensions). -/
def pyLower (s : String) : String :=
  ⟨s.data.map Char.toLower⟩

/-- Python string order (`≤`) on character lists: lexicographic by code point. -/
def pyStrLeData : List Char → List Char → Bool
  | [], _ => true
  | _ :: _, [] => false
  | a :: as, b :: bs =>
    if a.toNat < b.toNat then true
    else if b.toNat < a.toNat then false
    else pyStrLeData as bs

/-- Python string order (`≤`): lexicographic by code point. -/
def pyStrLe (s t : String) : Bool :=
  pyStrLeData s.data t.data

/-- Insert into a sorted list, before the first element it is `le` to;
the auxiliary step of the stable sort below. -/
def insertSorted (le : α → α → Bool) (a : α) : List α → List α
  | [] => [a]
  | b :: l => if le a b then a :: b :: l else b :: insertSorted le a l

/-- Python `sorted`: a stable ascending sort (insertion sort — extensionally
the same function as CPython's stable sort). -/
def pySorted (le : α → α → Bool) : List α → List α
  | [] => []
  | a :: l => insertSorted le a (pySorted le l)

/-- Join relative path segments with the separator, as `str(rel_root / name)`. -/
def joinSegs (segs : List String) : String :=
  String.intercalate "/" segs

/-! ### Path safety (`util.py`) -/

/-- Parse a relative path string into segments the way `pathlib.Path` does:
split on the separator, collapsing empty segments and single dots;
`..` segments survive parsing. -/
def parseRel (s : String) : List String :=
  (splitChar '/' s).filter (fun seg => seg != "" && seg != ".")

/-- The join `config_dir / path.lstrip("/")` of `util.is_path_safe`,
as segments of an absolute path at the root. -/
def joinedPath (root : List String) (path : String) : List String :=
  root ++ parseRel (pyLstripSlash path)

/-- Purely lexical canonicalization of an absolute segment list: `.` and empty
segments disappear, `..` pops the previous segment (at the filesystem root it
stays put).  This is what `Path.resolve()` computes on a symlink-free tree. -/
def resolveLexical (segs : List String) : List String :=
  segs.foldl
    (fun acc seg =>
      if seg = "" ∨ seg = "." then acc
      else if seg = ".." then acc.dropLast
      else acc ++ [seg]) []

/-- Model of `util.is_path_safe(config_dir, path)`: join the stripped client
path onto the root, canonicalize (`resolveFn` stands for `Path.resolve()`),
and test `full_path.is_relative_to(config_dir)`, which for absolute paths is
exactly the segment-prefix test. -/
def is_path_safe (resolveFn : List String → List String)
    (root : List String) (path : String) : Bool :=
  root.isPrefixOf (resolveFn (joinedPath root path))

/-- Model of `util.get_safe_path(config_dir, path)`: `None` unless
`is_path_safe` holds, otherwise the canonicalized join. -/
def get_safe_path (resolveFn : List String → List String)
    (root : List String) (path : String) : Option (List String) :=
  if is_path_safe resolveFn root path then
    some (resolveFn (joinedPath root path))
  else
    none

/-- Sandbox containment exactly as the specification words it: the canonical
result is the root itself, or a strict descendant of the root. -/
def SpecSandboxed (root q : List String) : Prop :=
  q = root ∨ ∃ rest, rest ≠ [] ∧ q = root ++ rest

/-! ### The sandboxed tree -/

/-- Contents of one directory, in the sibling order the OS enumerates:
empty, a regular file (name, byte size, text content) followed by the
remaining siblings, or a subdirectory followed by the remaining siblings. -/
inductive FS where
  | nil : FS
  | file (name : String) (size : Nat) (content : String) (rest : FS) : FS
  | dir (name : String) (children : FS) (rest : FS) : FS
  deriving DecidableEq

/-- Model of `FileManager._get_dir_size`: recursive sum of all file sizes. -/
def dirSize : FS → Nat
  | .nil => 0
  | .file _ sz _ rest => sz + dirSize rest
  | .dir _ cs rest => dirSize cs + dirSize rest

/-- Model of `FileManager._is_file_allowed`: paths under `.storage` are always
allowed; otherwise the lowered extension must be in `ALLOWED_EXTENSIONS` or
the bare filename in `ALLOWED_FILENAMES`.  `relRoot` is the directory of the
file relative to the sandbox root, so `relRoot ++ [name]` is
`path.relative_to(root).parts` (every model path is below the root). -/
def is_file_allowed (relRoot : List String) (name : String) : Bool :=
  (relRoot ++ [name]).contains ".storage"
  || ALLOWED_EXTENSIONS.contains (pyLower (pySuffix name))
  || ALLOWED_FILENAMES.contains name

/-- Model of `FileManager._is_protected`: the first segment of the stripped
path, or the whole stripped path, occurs in `PROTECTED_PATHS`. -/
def is_protected (path : String) : Bool :=
  PROTECTED_PATHS.contains ((splitChar '/' (pyStripSlash path)).headD "")
  || PROTECTED_PATHS.contains (pyStripSlash path)

/-! ### The recursive walker of `list_all` -/

/-- Kind tag of a listing entry (the `"type"` dict key). -/
inductive EntryKind where
  | file : EntryKind
  | folder : EntryKind
  deriving DecidableEq

/-- One element of a listing (`{"path": ..., "name": ..., "type": ...,
"size": ...}`); the relative path is kept as segments, the dict's string
form being `joinSegs path`. -/
structure Entry where
  path : List String
  name : String
  kind : EntryKind
  size : Nat
  deriving DecidableEq

/-- Safety limit `max_files = 50000` of `list_all`. -/
def max_files : Nat := 50000

/-- Recursion-depth limit `max_depth = 20` of `list_all`. -/
def max_depth : Nat := 20

/-- The directory filter `dirs[:] = ...` of `list_all`: excluded names are
always pruned; hidden names are pruned unless `show_hidden`. -/
def dir_keep (show_hidden : Bool) (name : String) : Bool :=
  !(EXCLUDED_PATTERNS.contains name) && (show_hidden || !(hiddenName name))

/-- The `files` component of an `os.walk` triple: name and size of each
regular file among the children, in sibling order. -/
def filePairs : FS → List (String × Nat)
  | .nil => []
  | .file n sz _ rest => (n, sz) :: filePairs rest
  | .dir _ _ rest => filePairs rest

/-- The pruned `dirs` component of an `os.walk` triple: name and contents of
each subdirectory surviving `dir_keep`, in sibling order. -/
def keptDirs (show_hidden : Bool) : FS → List (String × FS)
  | .nil => []
  | .file _ _ _ rest => keptDirs show_hidden rest
  | .dir n cs rest =>
    if dir_keep show_hidden n then (n, cs) :: keptDirs show_hidden rest
    else keptDirs show_hidden rest

/-- The `for name in sorted(dirs)` loop of one `os.walk` triple: folder
entries for the kept subdirectories, sorted by name, each with its
recursively computed size. -/
def folderEntriesOf (show_hidden : Bool) (relRoot : List String) (f : FS) : List Entry :=
  (pySorted (fun a b => pyStrLe a.1 b.1) (keptDirs show_hidden f)).map
    (fun p => ⟨relRoot ++ [p.1], p.1, .folder, dirSize p.2⟩)

/-- The `sorted(files)` list of one `os.walk` triple. -/
def sortedFilePairs (f : FS) : List (String × Nat) :=
  pySorted (fun a b => pyStrLe a.1 b.1) (filePairs f)

/-- The `for name in sorted(files)` loop of `list_all`: the counter is bumped
for every scanned file, the loop breaks once the counter exceeds `max_files`
(after the increment, so the file that overflows is not emitted), and hidden
or disallowed files are skipped after being counted. -/
def walkFiles (show_hidden : Bool) (relRoot : List String) :
    List (String × Nat) → Nat → List Entry × Nat
  | [], c => ([], c)
  | (name, sz) :: rest, c =>
    if c + 1 > max_files then ([], c + 1)
    else if (!show_hidden && hiddenName name) || !(is_file_allowed relRoot name) then
      walkFiles show_hidden relRoot rest (c + 1)
    else
      let p := walkFiles show_hidden relRoot rest (c + 1)
      (⟨relRoot ++ [name], name, .file, sz⟩ :: p.1, p.2)

/-- The recursive scan of `list_all` below the root triple: visit each kept
subdirectory of the sibling sequence in order, where one visit is one
`os.walk` iteration — first the `file_count >= max_files` check, whose
`break` (the `true` flag) abandons every directory still pending; then the
depth guard (`continue`); then the folder entries, the file entries and the
visits of the grandchildren.  Returns the entries, the final counter and
the break flag. -/
def walkKids (show_hidden : Bool) : List String → FS → Nat → List Entry × Nat × Bool
  | _, .nil, c => ([], c, false)
  | relRoot, .file _ _ _ rest, c => walkKids show_hidden relRoot rest c
  | relRoot, .dir name children rest, c =>
    if dir_keep show_hidden name then
      let sub : List Entry × Nat × Bool :=
        if max_files ≤ c then ([], c, true)
        else if max_depth ≤ (relRoot ++ [name]).length then ([], c, false)
        else
          let fp := walkFiles show_hidden (relRoot ++ [name]) (sortedFilePairs children) c
          let ks := walkKids show_hidden (relRoot ++ [name]) children fp.2
          (folderEntriesOf show_hidden (relRoot ++ [name]) children ++ fp.1 ++ ks.1,
           ks.2.1, ks.2.2)
      if sub.2.2 then (sub.1, sub.2.1, true)
      else
        let w := walkKids show_hidden relRoot rest sub.2.1
        (sub.1 ++ w.1, w.2.1, w.2.2)
    else walkKids show_hidden relRoot rest c

/-- The whole scan of `list_all`: the root's own `os.walk` triple (counter 0,
depth 0) followed by the visits of its kept subdirectories. -/
def walkRun (show_hidden : Bool) (f : FS) : List Entry × Nat × Bool :=
  if max_files ≤ 0 then ([], 0, true)
  else if max_depth ≤ ([] : List String).length then ([], 0, false)
  else
    let fp := walkFiles show_hidden [] (sortedFilePairs f) 0
    let ks := walkKids show_hidden [] f fp.2
    (folderEntriesOf show_hidden [] f ++ fp.1 ++ ks.1, ks.2.1, ks.2.2)

/-- The entry sequence produced by one walk of `list_all`. -/
def walkEntries (f : FS) (show_hidden : Bool) : List Entry :=
  (walkRun show_hidden f).1

/-- The final `sorted(res, key=lambda x: x["path"])` of `list_all`. -/
def sortEntries (es : List Entry) : List Entry :=
  pySorted (fun a b => pyStrLe (joinSegs a.path) (joinSegs b.path)) es

/-- File-kind test on entries. -/
def isFileEntry (e : Entry) : Bool :=
  e.kind == EntryKind.file

/-- Number of file entries in a listing. -/
def countFileEntries (es : List Entry) : Nat :=
  (es.filter isFileEntry).length

/-! ### The cache of `list_all` -/

/-- Mutable cache state of `FileManager`: the `_file_cache` dict (keyed by
the `show_hidden` flag; an association list whose newest binding wins, like
a dict write) and the single, global `_last_cache_update` stamp shared by
both keys.  Timestamps are integers. -/
structure FMState where
  fileCache : List (Bool × List Entry)
  lastUpdate : Int
  deriving DecidableEq

/-- The miss path of `list_all` (the body of its `try`), parametrised by the
outcome of the filesystem scan: `some res` when the walk completed (sort,
store under the key, stamp the shared timestamp, return), `none` when the
walk raised (`except` branch: fall back to the stale cached value for this
key if present, else the empty list; the state is left untouched and no
exception escapes). -/
def list_all_walk (key : Bool) (now : Int) (walkOutcome : Option (List Entry))
    (st : FMState) : List Entry × FMState :=
  match walkOutcome with
  | some res =>
    let s := sortEntries res
    (s, ⟨(key, s) :: st.fileCache, now⟩)
  | none =>
    match st.fileCache.lookup key with
    | some cached => (cached, st)
    | none => ([], st)

/-- Model of `list_all(show_hidden, force)`: serve the cached value exactly
when not forced, the key is present, and fewer than 30 seconds have passed
since the shared `_last_cache_update`; otherwise run the walk path. -/
def list_all_core (key force : Bool) (now : Int) (walkOutcome : Option (List Entry))
    (st : FMState) : List Entry × FMState :=
  if ¬ force ∧ (st.fileCache.lookup key).isSome ∧ now - st.lastUpdate < 30 then
    ((st.fileCache.lookup key).getD [], st)
  else
    list_all_walk key now walkOutcome st

/-- `list_all` on a healthy filesystem: the scan completes and yields the
walk of the current tree. -/
def list_all (show_hidden force : Bool) (now : Int) (f : FS)
    (st : FMState) : List Entry × FMState :=
  list_all_core show_hidden force now (some (walkEntries f show_hidden)) st

/-- Tree for the C5 counterexample before the mutation. -/
def c5fs1 : FS := .file "a.yaml" 1 "" .nil

/-- Tree for the C5 counterexample after the mutation. -/
def c5fs2 : FS := .file "a.yaml" 1 "" (.file "b.yaml" 2 "" .nil)

/-- State after a scan of `c5fs1` with key `false` at time 0 followed by a
scan of `c5fs2` with key `true` at time 25. -/
def c5st2 : FMState :=
  (list_all true false 25 c5fs2 (list_all false false 0 c5fs1 ⟨[], 0⟩).2).2

/-! ### The search engine (`global_search`) -/

/-- One search hit (`{"path", "line", "content"}`). -/
structure SMatch where
  path : String
  line : Nat
  content : String
  deriving DecidableEq

/-- Python text-file iteration: the lines of a content string (a trailing
final newline does not produce an extra empty line; the newline characters
themselves are immaterial here because the per-line predicate is an opaque
parameter and the reported content is stripped). -/
def pyLines (s : String) : List String :=
  let parts := splitChar '\n' s
  if parts.getLast? = some "" then parts.dropLast else parts

/-- The `include`/`exclude` inputs: comma-separated patterns, stripped,
empties dropped. -/
def parsePatterns (s : String) : List String :=
  ((splitChar ',' s).map pyStripWS).filter (fun p => p != "")

/-- The per-line loop of `search_single_file`: every matching line is
recorded (stripped, with its 1-based number); after an append that brings
the local count above 100 the loop breaks — so the append that reaches 101
still happens. -/
def searchLoop (psearch : String → Bool) (rpath : String) :
    List String → Nat → Nat → List SMatch
  | [], _, _ => []
  | l :: rest, i, k =>
    if psearch l then
      if k + 1 > 100 then [⟨rpath, i, pyStripWS l⟩]
      else ⟨rpath, i, pyStripWS l⟩ :: searchLoop psearch rpath rest (i + 1) (k + 1)
    else searchLoop psearch rpath rest (i + 1) k

/-- Model of the `search_single_file` worker. -/
def search_single_file (psearch : String → Bool) (rpath : String)
    (content : String) : List SMatch :=
  searchLoop psearch rpath (pyLines content) 1 0

/-- Candidate filter of `global_search` (the numbered filters of its
collection loop): allowed file, not binary, include globs (if any, the
relative path or the bare name must match one), exclude globs (none may
match).  `fnm` stands for `fnmatch.fnmatch`. -/
def searchFileOK (fnm : String → String → Bool) (incl excl : List String)
    (relRoot : List String) (name : String) : Bool :=
  is_file_allowed relRoot name
  && !(BINARY_EXTENSIONS.contains (pyLower (pySuffix name)))
  && (incl.isEmpty || incl.any (fun p => fnm (joinSegs (relRoot ++ [name])) p || fnm name p))
  && !(excl.any (fun p => fnm (joinSegs (relRoot ++ [name])) p || fnm name p))

/-- Candidate filter of `global_replace`: as for search, but files whose
whole relative path is in `PROTECTED_PATHS` are additionally skipped. -/
def replaceFileOK (fnm : String → String → Bool) (incl excl : List String)
    (relRoot : List String) (name : String) : Bool :=
  is_file_allowed relRoot name
  && !(BINARY_EXTENSIONS.contains (pyLower (pySuffix name)))
  && !(PROTECTED_PATHS.contains (joinSegs (relRoot ++ [name])))
  && (incl.isEmpty || incl.any (fun p => fnm (joinSegs (relRoot ++ [name])) p || fnm name p))
  && !(excl.any (fun p => fnm (joinSegs (relRoot ++ [name])) p || fnm name p))

/-- The `for name in files` part of the collection walk of
`global_search`/`global_replace`: `(segments, content)` of the accepted
files of one directory, in sibling order (this walk does not sort). -/
def fileRecs (ok : List String → String → Bool) (relRoot : List String) :
    FS → List (List String × String)
  | .nil => []
  | .file n _ ct rest =>
    (if ok relRoot n then [(relRoot ++ [n], ct)] else []) ++ fileRecs ok relRoot rest
  | .dir _ _ rest => fileRecs ok relRoot rest

/-- The recursive part of the collection walk: both engines always prune
hidden and excluded directory names (the filter is `dir_keep false`), then
visit each surviving subdirectory pre-order. -/
def collectKids (ok : List String → String → Bool) :
    List String → FS → List (List String × String)
  | _, .nil => []
  | r, .file _ _ _ rest => collectKids ok r rest
  | r, .dir n cs rest =>
    if dir_keep false n then
      fileRecs ok (r ++ [n]) cs ++ collectKids ok (r ++ [n]) cs ++ collectKids ok r rest
    else collectKids ok r rest

/-- Candidate collection: the root's own files first, then the visits. -/
def collectCandidates (ok : List String → String → Bool) (f : FS) :
    List (List String × String) :=
  fileRecs ok [] f ++ collectKids ok [] f

/-- Aggregation loop of `global_search` over the per-file results in
completion order: non-empty results are appended, and once the running total
reaches 2000 the loop breaks (the last extension may overshoot; the final
`[:2000]` truncates). -/
def aggregateResults : List (List SMatch) → List SMatch → List SMatch
  | [], acc => acc
  | r :: rest, acc =>
    if r.isEmpty then aggregateResults rest acc
    else
      let acc2 := acc ++ r
      if 2000 ≤ acc2.length then acc2 else aggregateResults rest acc2

/-- `global_search` from the per-file result lists (any completion order). -/
def global_search_run (perFile : List (List SMatch)) : List SMatch :=
  (aggregateResults perFile []).take 2000

/-- Model of `global_search`: collect the candidates, search each file, and
aggregate.  `psearch` models the compiled pattern's per-line `search`. -/
def global_search (psearch : String → Bool) (fnm : String → String → Bool)
    (inclS exclS : String) (f : FS) : List SMatch :=
  global_search_run
    ((collectCandidates (searchFileOK fnm (parsePatterns inclS) (parsePatterns exclS)) f).map
      (fun rc => search_single_file psearch (joinSegs rc.1) rc.2))

/-! ### The replace engine (`global_replace`) -/

/-- Rebuild the tree after the replace workers have run: `g` maps a file's
relative segments and old content to its content afterwards. -/
def applyWrites (g : List String → String → String) : List String → FS → FS
  | _, .nil => .nil
  | r, .file n sz ct rest => .file n sz (g (r ++ [n]) ct) (applyWrites g r rest)
  | r, .dir n cs rest => .dir n (applyWrites g (r ++ [n]) cs) (applyWrites g r rest)

/-- Every file of the tree with its relative segments and content. -/
def allFiles : List String → FS → List (List String × String)
  | _, .nil => []
  | r, .file n _ ct rest => (r ++ [n], ct) :: allFiles r rest
  | r, .dir n cs rest => allFiles (r ++ [n]) cs ++ allFiles r rest

/-- Model of `global_replace`: collect the targets (files whose whole
relative path is protected are skipped), let each worker substitute —
a worker reports `(path, count)` if and only if the content matches and the
substitution count is positive, and only then writes the file back.
Returns `((files_updated, occurrences), new tree)`.  `psearchC` models
`pattern.search` on a whole content, `psubn` models `pattern.subn`. -/
def global_replace (psearchC : String → Bool) (psubn : String → String × Nat)
    (fnm : String → String → Bool) (inclS exclS : String) (f : FS) :
    (Nat × Nat) × FS :=
  let targets := collectCandidates
    (replaceFileOK fnm (parsePatterns inclS) (parsePatterns exclS)) f
  let updated := targets.filter (fun rc => psearchC rc.2 && 0 < (psubn rc.2).2)
  ((updated.length, (updated.map (fun rc => (psubn rc.2).2)).sum),
   applyWrites
     (fun r ct =>
       if (targets.map (fun rc => rc.1)).contains r && psearchC ct && 0 < (psubn ct).2
       then (psubn ct).1 else ct)
     [] f)

/-! ### delete / delete_multi -/

/-- Outcome of `delete` (and of one item of `delete_multi`). -/
inductive DelOutcome where
  | denied : DelOutcome
  | notFound : DelOutcome
  | success : DelOutcome
  deriving DecidableEq

/-- Model of `delete(path)`: protected paths are refused (403); then the
safe path must resolve, must exist and must differ from the sandbox root
(404 otherwise).  The second component is the target actually removed
(`none` on any error).  `existsFn` stands for `Path.exists()`. -/
def delete_decision (resolveFn : List String → List String) (root : List String)
    (existsFn : List String → Bool) (path : String) :
    DelOutcome × Option (List String) :=
  if is_protected path then (.denied, none)
  else
    match get_safe_path resolveFn root path with
    | none => (.notFound, none)
    | some sp =>
      if !(existsFn sp) || sp = root then (.notFound, none)
      else (.success, some sp)

/-- Model of `delete_multi(paths)`: per item exactly the checks of `delete`
with `continue` instead of an error result; returns the removed targets. -/
def delete_multi_removals (resolveFn : List String → List String)
    (root : List String) (existsFn : List String → Bool)
    (paths : List String) : List (List String) :=
  paths.filterMap (fun p => (delete_decision resolveFn root existsFn p).2)

/-! ### Literal-pattern matchers (witness instantiations of `re`) -/

/-- Substring test on character lists. -/
def containsSub (q : List Char) : List Char → Bool
  | [] => q.isEmpty
  | c :: cs => q.isPrefixOf (c :: cs) || containsSub q cs

/-- `re.search` for a literal (escaped) pattern: substring containment. -/
def containsLit (q s : String) : Bool :=
  containsSub q.data s.data

/-- `re.subn` for a literal pattern on character lists: replace the
leftmost, non-overlapping occurrences and count them.  The fuel argument
(at least the length of the text) keeps the recursion structural. -/
def subnFuel (q r : List Char) : Nat → List Char → List Char × Nat
  | 0, s => (s, 0)
  | fuel + 1, s =>
    match s with
    | [] => ([], 0)
    | c :: cs =>
      if !q.isEmpty && q.isPrefixOf (c :: cs) then
        let t := subnFuel q r fuel ((c :: cs).drop q.length)
        (r ++ t.1, t.2 + 1)
      else
        let t := subnFuel q r fuel cs
        (c :: t.1, t.2)

/-- `re.subn` for a literal pattern. -/
def subnLit (q r s : String) : String × Nat :=
  let t := subnFuel q.data r.data s.data.length s.data
  (⟨t.1⟩, t.2)

/-! ### Concrete trees for counterexamples -/

/-- Tree for the C3 counterexample: one searchable file whose 101 lines all
match. -/
def c3fs : FS :=
  .file "a.txt" 0 (String.intercalate "\n" (List.replicate 101 "foo")) .nil

/-- Tree for the C9 counterexample: a directory carrying a protected name,
with a replaceable file inside. -/
def c9fs : FS :=
  .dir "configuration.yaml" (.file "x.yaml" 0 "foo" .nil) .nil

/-- Distinct directory names for the wide counterexample tree; none is
hidden or excluded. -/
def cname (i : Nat) : String :=
  ⟨'x' :: (Nat.repr i).data⟩

/-- A root directory with `n` empty subdirectories. -/
def wideF : Nat → FS
  | 0 => .nil
  | n + 1 => .dir (cname n) .nil (wideF n)

end HassCM

namespace HassCM

/-! ### Theorems -/

theorem specSandboxed_iff (root q : List String) :
    SpecSandboxed root q ↔ root <+: q := by
  constructor
  · rintro (rfl | ⟨rest, -, rfl⟩)
    · exact List.prefix_refl _
    · exact ⟨rest, rfl⟩
  · rintro ⟨t, rfl⟩
    rcases eq_or_ne t [] with rfl | ht
    · exact Or.inl (List.append_nil _)
    · exact Or.inr ⟨t, ht, rfl⟩

/-- C1: for every client-supplied relative path whose canonicalized join with
the sandbox root is neither the root itself nor a descendant of the root,
`get_safe_path` returns `None` — for every canonicalization function, hence
under whatever symlink state `Path.resolve()` observes. -/
theorem c1_get_safe_path_denies_escape
    (resolveFn : List String → List String) (root : List String) (path : String)
    (h : ¬ SpecSandboxed root (resolveFn (joinedPath root path))) :
    get_safe_path resolveFn root path = none := by
  unfold get_safe_path
  rw [if_neg]
  intro hsafe
  exact h ((specSandboxed_iff root _).mpr
    (List.isPrefixOf_iff_prefix.mp (by simpa [is_path_safe] using hsafe)))

/-- Witness for C1: the traversal path `../etc/passwd` resolves outside the
root `/config` and is denied. -/
theorem c1_witness :
    get_safe_path resolveLexical ["config"] "../etc/passwd" = none :=
  c1_get_safe_path_denies_escape resolveLexical ["config"] "../etc/passwd"
    (by rw [specSandboxed_iff]; decide)

/-- C8: if the recursive walk inside `list_all` raises partway, `list_all`
returns the last good cached sequence for the requested visibility key when
one exists and the empty sequence otherwise, leaves the state unchanged, and
(being a total function of the outcome) never propagates the fault. -/
theorem c8_walk_failure_fallback (key force : Bool) (now : Int) (st : FMState) :
    (list_all_core key force now none st).1 = (st.fileCache.lookup key).getD []
    ∧ (list_all_core key force now none st).2 = st := by
  unfold list_all_core list_all_walk
  split
  · simp
  · cases h : st.fileCache.lookup key <;> simp [h]

/-- C4: a second non-forced `list_all` with the same visibility key, issued
while fewer than 30 seconds have passed since the timestamp left by the
first call, returns exactly the first call's entries even though the tree
has meanwhile changed from `fs₁` to `fs₂`; and a forced call always returns
the fresh walk of the current tree, whatever the cache holds. -/
theorem c4_cache_stability_and_force
    (key : Bool) (t₁ t₂ : Int) (fs₁ fs₂ : FS) (st₀ : FMState)
    (h : t₂ - ((list_all key false t₁ fs₁ st₀).2).lastUpdate < 30) :
    (list_all key false t₂ fs₂ (list_all key false t₁ fs₁ st₀).2).1
      = (list_all key false t₁ fs₁ st₀).1
    ∧ ∀ (t : Int) (fs : FS) (st : FMState),
        (list_all key true t fs st).1 = sortEntries (walkEntries fs key) := by
  constructor
  · by_cases hc : (st₀.fileCache.lookup key).isSome ∧ t₁ - st₀.lastUpdate < 30
    · have h1 : list_all key false t₁ fs₁ st₀
          = ((st₀.fileCache.lookup key).getD [], st₀) := by
        unfold list_all list_all_core
        rw [if_pos ⟨by decide, hc.1, hc.2⟩]
      rw [h1] at h ⊢
      unfold list_all list_all_core
      rw [if_pos ⟨by decide, hc.1, h⟩]
    · have h1 : list_all key false t₁ fs₁ st₀
          = (sortEntries (walkEntries fs₁ key),
             ⟨(key, sortEntries (walkEntries fs₁ key)) :: st₀.fileCache, t₁⟩) := by
        unfold list_all list_all_core
        rw [if_neg (fun hcond => hc ⟨hcond.2.1, hcond.2.2⟩)]
        rfl
      rw [h1] at h ⊢
      unfold list_all list_all_core
      rw [if_pos ⟨by decide, by simp, by simpa using h⟩]
      simp
  · intro t fs st
    unfold list_all list_all_core
    rw [if_neg (by simp)]
    rfl

/-- Witness for C4 at a concrete state: an empty cache, a first scan at time
0 of a one-file tree, a second scan at time 10 of a two-file tree. -/
theorem c4_witness :
    ((10 : Int) - ((list_all false false 0 c5fs1 ⟨[], 0⟩).2).lastUpdate < 30)
    ∧ (list_all false false 10 c5fs2
        (list_all false false 0 c5fs1 ⟨[], 0⟩).2).1
      = (list_all false false 0 c5fs1 ⟨[], 0⟩).1 :=
  ⟨by decide,
   (c4_cache_stability_and_force false 0 10 c5fs1 c5fs2 ⟨[], 0⟩ (by decide)).1⟩

/-- C5 (amended): cache expiry is measured against the single shared
`_last_cache_update` stamp, not against the served entry's own capture time:
whenever at least 30 seconds have passed since that shared stamp, `list_all`
performs a fresh walk of the current tree. -/
theorem c5_ttl_uses_global_stamp (key force : Bool) (now : Int) (fs : FS)
    (st : FMState) (h : 30 ≤ now - st.lastUpdate) :
    (list_all key force now fs st).1 = sortEntries (walkEntries fs key) := by
  unfold list_all list_all_core
  rw [if_neg (fun hcond => by omega)]
  rfl

/-- Witness for C5 (amended): an expired state is re-walked. -/
theorem c5_witness :
    (list_all false false 31 c5fs1 ⟨[(false, [])], 0⟩).1
      = sortEntries (walkEntries c5fs1 false) :=
  c5_ttl_uses_global_stamp false false 31 c5fs1 ⟨[(false, [])], 0⟩ (by decide)

/-- Counterexample to C5 as stated: the cache entry for key `false` was
captured at time 0, yet at time 40 — more than 30 seconds later — a
non-forced `list_all` still serves it (the shared stamp was refreshed by the
other key's walk at time 25), returning the stale one-file listing instead
of the fresh walk of the current two-file tree. -/
theorem c5_counterexample :
    (list_all false false 40 c5fs2 c5st2).1 = sortEntries (walkEntries c5fs1 false)
    ∧ (list_all false false 40 c5fs2 c5st2).1 ≠ sortEntries (walkEntries c5fs2 false) := by
  constructor
  · decide
  · decide

theorem insertSorted_perm (le : α → α → Bool) (a : α) (l : List α) :
    (insertSorted le a l).Perm (a :: l) := by
  induction l with
  | nil => rfl
  | cons b t ih =>
    unfold insertSorted
    split
    · exact List.Perm.refl _
    · exact (ih.cons b).trans (List.Perm.swap a b t)

theorem pySorted_perm (le : α → α → Bool) (l : List α) :
    (pySorted le l).Perm l := by
  induction l with
  | nil => rfl
  | cons a t ih => exact (insertSorted_perm le a (pySorted le t)).trans (ih.cons a)

theorem pySorted_mem (le : α → α → Bool) (l : List α) (x : α) :
    x ∈ pySorted le l ↔ x ∈ l :=
  (pySorted_perm le l).mem_iff

theorem pySorted_length (le : α → α → Bool) (l : List α) :
    (pySorted le l).length = l.length :=
  (pySorted_perm le l).length_eq

theorem dir_keep_spec {sh : Bool} {n : String} (h : dir_keep sh n = true) :
    n ∉ EXCLUDED_PATTERNS ∧ (sh = true ∨ hiddenName n = false) := by
  unfold dir_keep at h
  rw [Bool.and_eq_true, Bool.not_eq_true', Bool.or_eq_true, Bool.not_eq_true'] at h
  refine ⟨fun hmem => ?_, h.2⟩
  have : EXCLUDED_PATTERNS.contains n = true := by
    simpa [List.contains, List.elem_eq_mem] using hmem
  rw [this] at h
  simp at h

theorem keptDirs_mem (sh : Bool) :
    ∀ (f : FS) {n : String} {cs : FS},
      (n, cs) ∈ keptDirs sh f → dir_keep sh n = true := by
  intro f
  induction f with
  | nil => intro n cs h; simp [keptDirs] at h
  | file nm sz ct rest ih => intro n cs h; exact ih (by simpa [keptDirs] using h)
  | dir nm cs0 rest ihc ihr =>
    intro n cs h
    by_cases hk : dir_keep sh nm = true
    · rw [keptDirs, if_pos hk] at h
      rcases List.mem_cons.mp h with heq | h2
      · injection heq with h1 h2
        subst h1
        exact hk
      · exact ihr h2
    · rw [keptDirs, if_neg hk] at h
      exact ihr h

theorem folderEntriesOf_mem {sh : Bool} {relRoot : List String} {f : FS} {e : Entry}
    (h : e ∈ folderEntriesOf sh relRoot f) :
    ∃ n cs, (n, cs) ∈ keptDirs sh f
      ∧ e = ⟨relRoot ++ [n], n, .folder, dirSize cs⟩ := by
  unfold folderEntriesOf at h
  rcases List.mem_map.mp h with ⟨p, hp, rfl⟩
  exact ⟨p.1, p.2, (pySorted_mem _ _ _).mp hp, rfl⟩

theorem walkFiles_mem (sh : Bool) (relRoot : List String) :
    ∀ (files : List (String × Nat)) (c : Nat) {e : Entry},
      e ∈ (walkFiles sh relRoot files c).1 →
      e.path = relRoot ++ [e.name] ∧ e.kind = .file
        ∧ (sh = false → hiddenName e.name = false) := by
  intro files
  induction files with
  | nil => intro c e h; simp [walkFiles] at h
  | cons p rest ih =>
    intro c e h
    obtain ⟨name, sz⟩ := p
    by_cases hbrk : c + 1 > max_files
    · rw [walkFiles, if_pos hbrk] at h
      simp at h
    · by_cases hskip : ((!sh && hiddenName name) || !(is_file_allowed relRoot name)) = true
      · rw [walkFiles, if_neg hbrk, if_pos hskip] at h
        exact ih _ h
      · rw [walkFiles, if_neg hbrk, if_neg hskip] at h
        rcases List.mem_cons.mp h with rfl | h2
        · refine ⟨rfl, rfl, fun hsh => ?_⟩
          subst hsh
          by_contra hh
          rw [Bool.not_eq_false] at hh
          exact hskip (by simp [hh])
        · exact ih _ h2

theorem walkKids_clean :
    ∀ (f : FS) (relRoot : List String) (c : Nat) {e : Entry},
      (∀ s ∈ relRoot, s ∉ EXCLUDED_PATTERNS) →
      e ∈ (walkKids false relRoot f c).1 →
      hiddenName e.name = false ∧ ∀ s ∈ e.path.dropLast, s ∉ EXCLUDED_PATTERNS := by
  intro f
  induction f with
  | nil => intro r c e _ h; simp [walkKids] at h
  | file nm sz ct rest ih => intro r c e hr h; exact ih r c hr (by simpa [walkKids] using h)
  | dir name children rest ihc ihr =>
    intro r c e hr h
    by_cases hk : dir_keep false name = true
    · have hr' : ∀ s ∈ r ++ [name], s ∉ EXCLUDED_PATTERNS := by
        intro s hs
        rcases List.mem_append.mp hs with hs1 | hs2
        · exact hr s hs1
        · rw [List.mem_singleton.mp hs2]
          exact (dir_keep_spec hk).1
      have hfold : e ∈ folderEntriesOf false (r ++ [name]) children →
          hiddenName e.name = false
            ∧ ∀ s ∈ e.path.dropLast, s ∉ EXCLUDED_PATTERNS := by
        intro hf
        rcases folderEntriesOf_mem hf with ⟨n', cs', hkept, rfl⟩
        have hk' := keptDirs_mem false children hkept
        refine ⟨((dir_keep_spec hk').2).resolve_left (by decide), ?_⟩
        simpa [List.dropLast_append_cons] using hr'
      have hfile : ∀ {c' : Nat},
          e ∈ (walkFiles false (r ++ [name]) (sortedFilePairs children) c').1 →
          hiddenName e.name = false
            ∧ ∀ s ∈ e.path.dropLast, s ∉ EXCLUDED_PATTERNS := by
        intro c' hw
        rcases walkFiles_mem false (r ++ [name]) _ c' hw with ⟨hp, -, hh⟩
        refine ⟨hh rfl, ?_⟩
        rw [hp]
        simpa [List.dropLast_append_cons] using hr'
      have hkids : ∀ {c' : Nat},
          e ∈ (walkKids false (r ++ [name]) children c').1 →
          hiddenName e.name = false
            ∧ ∀ s ∈ e.path.dropLast, s ∉ EXCLUDED_PATTERNS :=
        fun hks => ihc (r ++ [name]) _ hr' hks
      rw [walkKids] at h
      rw [if_pos hk] at h
      by_cases hmax : max_files ≤ c
      · rw [if_pos hmax] at h
        simp at h
      · rw [if_neg hmax] at h
        by_cases hdep : max_depth ≤ (r ++ [name]).length
        · rw [if_pos hdep] at h
          simp only [] at h
          exact ihr r c hr (by simpa using h)
        · rw [if_neg hdep] at h
          simp only [] at h
          by_cases hflag : (walkKids false (r ++ [name]) children
              (walkFiles false (r ++ [name]) (sortedFilePairs children) c).2).2.2 = true
          · rw [if_pos hflag] at h
            simp only [List.append_assoc, List.mem_append] at h
            rcases h with h1 | h2 | h3
            · exact hfold h1
            · exact hfile h2
            · exact hkids h3
          · rw [if_neg hflag] at h
            simp only [List.append_assoc, List.mem_append] at h
            rcases h with h1 | h2 | h3 | h4
            · exact hfold h1
            · exact hfile h2
            · exact hkids h3
            · exact ihr r _ hr h4
    · rw [walkKids, if_neg hk] at h
      exact ihr r c hr h

/-- C6: with `show_hidden = false`, no entry produced by the walk of
`list_all` has a name starting with the hidden marker, and no entry lies
inside a directory whose name is in the excluded set (every segment of the
entry's directory part avoids `EXCLUDED_PATTERNS`). -/
theorem c6_no_hidden_no_excluded (f : FS) (e : Entry)
    (he : e ∈ walkEntries f false) :
    hiddenName e.name = false ∧ ∀ s ∈ e.path.dropLast, s ∉ EXCLUDED_PATTERNS := by
  unfold walkEntries walkRun at he
  rw [if_neg (by decide), if_neg (by decide)] at he
  simp only [List.append_assoc, List.mem_append] at he
  have hnil : ∀ s ∈ ([] : List String), s ∉ EXCLUDED_PATTERNS := by simp
  rcases he with h1 | h2 | h3
  · rcases folderEntriesOf_mem h1 with ⟨n', cs', hkept, rfl⟩
    have hk' := keptDirs_mem false f hkept
    refine ⟨((dir_keep_spec hk').2).resolve_left (by decide), ?_⟩
    simp [List.dropLast_append_cons]
  · rcases walkFiles_mem false [] _ 0 h2 with ⟨hp, -, hh⟩
    refine ⟨hh rfl, ?_⟩
    rw [hp]
    simp [List.dropLast_append_cons]
  · exact walkKids_clean f [] _ hnil h3

/-- Witness for C6 on a concrete tree containing a visible folder with a
visible file, a hidden file and an excluded directory. -/
theorem c6_witness :
    (⟨["sub"], "sub", EntryKind.folder, 1⟩ : Entry)
        ∈ walkEntries (.dir "sub" (.file "a.yaml" 1 "" .nil)
            (.file ".hidden" 1 "" (.dir "deps" .nil .nil))) false
    ∧ hiddenName "sub" = false
    ∧ ∀ s ∈ (["sub"] : List String).dropLast, s ∉ EXCLUDED_PATTERNS := by
  refine ⟨by decide, ?_⟩
  exact c6_no_hidden_no_excluded
    (.dir "sub" (.file "a.yaml" 1 "" .nil) (.file ".hidden" 1 "" (.dir "deps" .nil .nil)))
    ⟨["sub"], "sub", EntryKind.folder, 1⟩ (by decide)

theorem countFE_append (a b : List Entry) :
    countFileEntries (a ++ b) = countFileEntries a + countFileEntries b := by
  simp [countFileEntries, List.filter_append]

theorem countFE_folders (sh : Bool) (r : List String) (f : FS) :
    countFileEntries (folderEntriesOf sh r f) = 0 := by
  unfold folderEntriesOf countFileEntries
  generalize pySorted (fun a b => pyStrLe a.1 b.1) (keptDirs sh f) = l
  induction l with
  | nil => rfl
  | cons p rest ih => simpa [isFileEntry] using ih

theorem countFE_walkFiles (sh : Bool) (r : List String) :
    ∀ (files : List (String × Nat)) (c : Nat),
      countFileEntries (walkFiles sh r files c).1 = (walkFiles sh r files c).1.length := by
  intro files
  induction files with
  | nil => intro c; rfl
  | cons p rest ih =>
    intro c
    obtain ⟨name, sz⟩ := p
    by_cases hbrk : c + 1 > max_files
    · rw [walkFiles, if_pos hbrk]; rfl
    · by_cases hskip : ((!sh && hiddenName name) || !(is_file_allowed r name)) = true
      · rw [walkFiles, if_neg hbrk, if_pos hskip]; exact ih _
      · rw [walkFiles, if_neg hbrk, if_neg hskip]
        simpa [countFileEntries, isFileEntry] using ih (c + 1)

theorem walkFiles_count (sh : Bool) (r : List String) :
    ∀ (files : List (String × Nat)) (c : Nat),
      (walkFiles sh r files c).1.length + min c max_files
        ≤ min ((walkFiles sh r files c).2) max_files := by
  intro files
  induction files with
  | nil => intro c; rw [walkFiles]; simp
  | cons p rest ih =>
    intro c
    obtain ⟨name, sz⟩ := p
    by_cases hbrk : c + 1 > max_files
    · rw [walkFiles, if_pos hbrk]
      simp only [List.length_nil]
      omega
    · by_cases hskip : ((!sh && hiddenName name) || !(is_file_allowed r name)) = true
      · rw [walkFiles, if_neg hbrk, if_pos hskip]
        have := ih (c + 1)
        omega
      · rw [walkFiles, if_neg hbrk, if_neg hskip]
        simp only [List.length_cons]
        have := ih (c + 1)
        omega

theorem walkKids_count (sh : Bool) :
    ∀ (f : FS) (r : List String) (c : Nat),
      countFileEntries (walkKids sh r f c).1 + min c max_files
        ≤ min ((walkKids sh r f c).2.1) max_files := by
  intro f
  induction f with
  | nil => intro r c; simp [walkKids, countFileEntries]
  | file nm sz ct rest ih => intro r c; simpa [walkKids] using ih r c
  | dir name children rest ihc ihr =>
    intro r c
    by_cases hk : dir_keep sh name = true
    · rw [walkKids, if_pos hk]
      by_cases hmax : max_files ≤ c
      · rw [if_pos hmax]
        simp [countFileEntries]
      · rw [if_neg hmax]
        by_cases hdep : max_depth ≤ (r ++ [name]).length
        · rw [if_pos hdep]
          simp only []
          have := ihr r c
          simpa [countFE_append] using this
        · rw [if_neg hdep]
          simp only []
          have hfp := walkFiles_count sh (r ++ [name]) (sortedFilePairs children) c
          have hfc := countFE_walkFiles sh (r ++ [name]) (sortedFilePairs children) c
          have hks := ihc (r ++ [name])
            (walkFiles sh (r ++ [name]) (sortedFilePairs children) c).2
          by_cases hflag : (walkKids sh (r ++ [name]) children
              (walkFiles sh (r ++ [name]) (sortedFilePairs children) c).2).2.2 = true
          · rw [if_pos hflag]
            simp only [countFE_append, countFE_folders]
            omega
          · rw [if_neg hflag]
            simp only [countFE_append, countFE_folders]
            have hw := ihr r
              (walkKids sh (r ++ [name]) children
                (walkFiles sh (r ++ [name]) (sortedFilePairs children) c).2).2.1
            omega
    · rw [walkKids, if_neg hk]
      exact ihr r c

theorem walkKids_depth (sh : Bool) :
    ∀ (f : FS) (r : List String) (c : Nat) {e : Entry},
      e ∈ (walkKids sh r f c).1 → e.path.length ≤ max_depth := by
  intro f
  induction f with
  | nil => intro r c e h; simp [walkKids] at h
  | file nm sz ct rest ih => intro r c e h; exact ih r c (by simpa [walkKids] using h)
  | dir name children rest ihc ihr =>
    intro r c e h
    by_cases hk : dir_keep sh name = true
    · rw [walkKids, if_pos hk] at h
      by_cases hmax : max_files ≤ c
      · rw [if_pos hmax] at h
        simp at h
      · rw [if_neg hmax] at h
        by_cases hdep : max_depth ≤ (r ++ [name]).length
        · rw [if_pos hdep] at h
          exact ihr r c (by simpa using h)
        · rw [if_neg hdep] at h
          simp only [] at h
          have hlen : (r ++ [name]).length + 1 ≤ max_depth := by
            omega
          have hfold : e ∈ folderEntriesOf sh (r ++ [name]) children →
              e.path.length ≤ max_depth := by
            intro hf
            rcases folderEntriesOf_mem hf with ⟨n', cs', -, rfl⟩
            simpa using hlen
          have hfile : ∀ {c' : Nat},
              e ∈ (walkFiles sh (r ++ [name]) (sortedFilePairs children) c').1 →
              e.path.length ≤ max_depth := by
            intro c' hw
            rcases walkFiles_mem sh (r ++ [name]) _ c' hw with ⟨hp, -, -⟩
            rw [hp]
            simpa using hlen
          by_cases hflag : (walkKids sh (r ++ [name]) children
              (walkFiles sh (r ++ [name]) (sortedFilePairs children) c).2).2.2 = true
          · rw [if_pos hflag] at h
            simp only [List.append_assoc, List.mem_append] at h
            rcases h with h1 | h2 | h3
            · exact hfold h1
            · exact hfile h2
            · exact ihc (r ++ [name]) _ h3
          · rw [if_neg hflag] at h
            simp only [List.append_assoc, List.mem_append] at h
            rcases h with h1 | h2 | h3 | h4
            · exact hfold h1
            · exact hfile h2
            · exact ihc (r ++ [name]) _ h3
            · exact ihr r _ h4
    · rw [walkKids, if_neg hk] at h
      exact ihr r c h

/-- C7 (amended): one walk of `list_all` produces at most 50000 FILE
entries — the counter enforcing `max_files` counts scanned files only, so
folder entries escape the limit (see the counterexample) — and no produced
entry lies more than 20 directory levels below the root. -/
theorem c7_file_count_and_depth (f : FS) (sh : Bool) :
    countFileEntries (walkEntries f sh) ≤ max_files
    ∧ ∀ e ∈ walkEntries f sh, e.path.length ≤ max_depth := by
  constructor
  · unfold walkEntries walkRun
    rw [if_neg (by decide), if_neg (by decide)]
    simp only [countFE_append, countFE_folders]
    have hfp := walkFiles_count sh [] (sortedFilePairs f) 0
    have hfc := countFE_walkFiles sh [] (sortedFilePairs f) 0
    have hks := walkKids_count sh f [] (walkFiles sh [] (sortedFilePairs f) 0).2
    omega
  · intro e he
    unfold walkEntries walkRun at he
    rw [if_neg (by decide), if_neg (by decide)] at he
    simp only [List.append_assoc, List.mem_append] at he
    rcases he with h1 | h2 | h3
    · rcases folderEntriesOf_mem h1 with ⟨n', cs', -, rfl⟩
      simp [max_depth]
    · rcases walkFiles_mem sh [] _ 0 h2 with ⟨hp, -, -⟩
      rw [hp]
      simp [max_depth]
    · exact walkKids_depth sh f [] _ h3

/-- Witness for C7 (amended) on a concrete two-level tree. -/
theorem c7_witness :
    countFileEntries (walkEntries (.dir "sub" (.file "a.yaml" 1 "" .nil) .nil) false)
      ≤ max_files
    ∧ (⟨["sub", "a.yaml"], "a.yaml", EntryKind.file, 1⟩ : Entry).path.length ≤ max_depth := by
  refine ⟨(c7_file_count_and_depth (.dir "sub" (.file "a.yaml" 1 "" .nil) .nil) false).1, ?_⟩
  exact (c7_file_count_and_depth (.dir "sub" (.file "a.yaml" 1 "" .nil) .nil) false).2
    ⟨["sub", "a.yaml"], "a.yaml", EntryKind.file, 1⟩ (by decide)

theorem dir_keep_cname (i : Nat) : dir_keep false (cname i) = true := rfl

theorem keptDirs_wide_len (n : Nat) : (keptDirs false (wideF n)).length = n := by
  induction n with
  | zero => rfl
  | succ m ih =>
    rw [wideF, keptDirs, if_pos (dir_keep_cname m)]
    simp [ih]

theorem filePairs_wide (n : Nat) : filePairs (wideF n) = [] := by
  induction n with
  | zero => rfl
  | succ m ih => rw [wideF, filePairs]; exact ih

theorem walkKids_wide (n : Nat) :
    walkKids false [] (wideF n) 0 = ([], 0, false) := by
  induction n with
  | zero => rfl
  | succ m ih =>
    show ((walkKids false [] (wideF m) 0).1,
          (walkKids false [] (wideF m) 0).2.1,
          (walkKids false [] (wideF m) 0).2.2) = ([], 0, false)
    rw [ih]

theorem walkEntries_wide (n : Nat) : (walkEntries (wideF n) false).length = n := by
  unfold walkEntries walkRun
  rw [if_neg (by decide), if_neg (by decide)]
  simp only []
  have hfp : sortedFilePairs (wideF n) = [] := by
    rw [sortedFilePairs, filePairs_wide]
    rfl
  rw [hfp]
  rw [show (walkFiles false [] [] 0).2 = 0 from rfl]
  rw [walkKids_wide]
  simp only [List.append_nil, List.length_append]
  rw [show (walkFiles false [] [] 0).1 = [] from rfl]
  simp only [List.length_nil, Nat.add_zero]
  unfold folderEntriesOf
  rw [List.length_map, pySorted_length, keptDirs_wide_len]

/-- Counterexample to C7 as stated: a root holding 50001 empty directories
(all names distinct, none hidden or excluded) makes a single walk produce
50001 Entry records — the 50000 safety limit counts scanned files only, and
these are folder entries. -/
theorem c7_counterexample :
    50000 < (walkEntries (wideF 50001) false).length := by
  rw [walkEntries_wide]
  omega

/-- C2: for every tree, pattern, glob filter and per-file completion order,
`global_search` returns at most 2000 matches in total (the final `[:2000]`
truncation also bounds every aggregation order). -/
theorem c2_global_search_cap (psearch : String → Bool) (fnm : String → String → Bool)
    (inclS exclS : String) (f : FS) :
    (global_search psearch fnm inclS exclS f).length ≤ 2000
    ∧ ∀ perFile : List (List SMatch), (global_search_run perFile).length ≤ 2000 := by
  constructor
  · unfold global_search global_search_run
    rw [List.length_take]
    exact min_le_left _ _
  · intro perFile
    unfold global_search_run
    rw [List.length_take]
    exact min_le_left _ _

theorem searchLoop_path (psearch : String → Bool) (rpath : String) :
    ∀ (lines : List String) (i k : Nat) {m : SMatch},
      m ∈ searchLoop psearch rpath lines i k → m.path = rpath := by
  intro lines
  induction lines with
  | nil => intro i k m h; simp [searchLoop] at h
  | cons l rest ih =>
    intro i k m h
    rw [searchLoop] at h
    by_cases hm : psearch l = true
    · rw [if_pos hm] at h
      by_cases hc : k + 1 > 100
      · rw [if_pos hc] at h
        rw [List.mem_singleton.mp h]
      · rw [if_neg hc] at h
        rcases List.mem_cons.mp h with rfl | h2
        · rfl
        · exact ih _ _ h2
    · rw [if_neg hm] at h
      exact ih _ _ h

theorem searchLoop_le (psearch : String → Bool) (rpath : String) :
    ∀ (lines : List String) (i k : Nat),
      (searchLoop psearch rpath lines i k).length + min k 100 ≤ 101 := by
  intro lines
  induction lines with
  | nil => intro i k; rw [searchLoop]; simp only [List.length_nil]; omega
  | cons l rest ih =>
    intro i k
    rw [searchLoop]
    by_cases hm : psearch l = true
    · rw [if_pos hm]
      by_cases hc : k + 1 > 100
      · rw [if_pos hc]
        simp only [List.length_singleton]
        omega
      · rw [if_neg hc]
        simp only [List.length_cons]
        have := ih (i + 1) (k + 1)
        omega
    · rw [if_neg hm]
      exact ih (i + 1) k

theorem search_single_file_le (psearch : String → Bool) (rpath content : String) :
    (search_single_file psearch rpath content).length ≤ 101 := by
  have := searchLoop_le psearch rpath (pyLines content) 1 0
  unfold search_single_file
  omega

theorem search_single_file_path (psearch : String → Bool) (rpath content : String)
    {m : SMatch} (h : m ∈ search_single_file psearch rpath content) : m.path = rpath :=
  searchLoop_path psearch rpath (pyLines content) 1 0 h

theorem aggregateResults_flatten :
    ∀ (l : List (List SMatch)) (acc : List SMatch),
      ∃ k, aggregateResults l acc = acc ++ (l.take k).flatten := by
  intro l
  induction l with
  | nil => intro acc; exact ⟨0, by simp [aggregateResults]⟩
  | cons r rest ih =>
    intro acc
    rw [aggregateResults]
    by_cases he : r.isEmpty = true
    · rw [if_pos he]
      obtain ⟨k, hk⟩ := ih acc
      refine ⟨k + 1, ?_⟩
      rw [hk, List.isEmpty_iff.mp he]
      simp
    · rw [if_neg he]
      by_cases hlen : 2000 ≤ (acc ++ r).length
      · rw [if_pos hlen]
        exact ⟨1, by simp⟩
      · rw [if_neg hlen]
        obtain ⟨k, hk⟩ := ih (acc ++ r)
        refine ⟨k + 1, ?_⟩
        rw [hk]
        simp

theorem mem_flatten_path (psearch : String → Bool)
    (cands : List (List String × String)) {m : SMatch}
    (h : m ∈ (cands.map
      (fun rc => search_single_file psearch (joinSegs rc.1) rc.2)).flatten) :
    m.path ∈ cands.map (fun rc => joinSegs rc.1) := by
  rcases List.mem_flatten.mp h with ⟨l, hl, hm⟩
  rcases List.mem_map.mp hl with ⟨rc, hrc, rfl⟩
  rw [search_single_file_path psearch _ _ hm]
  exact List.mem_map.mpr ⟨rc, hrc, rfl⟩

theorem filter_path_flatten_le (psearch : String → Bool) :
    ∀ (cands : List (List String × String)) (p : String),
      (cands.map (fun rc => joinSegs rc.1)).Nodup →
      (((cands.map (fun rc => search_single_file psearch (joinSegs rc.1) rc.2)).flatten.filter
        (fun m => m.path == p)).length) ≤ 101 := by
  intro cands
  induction cands with
  | nil => intro p _; simp
  | cons rc rest ih =>
    intro p hnd
    rw [List.map_cons, List.flatten_cons, List.filter_append, List.length_append]
    rw [List.map_cons, List.nodup_cons] at hnd
    by_cases hp : joinSegs rc.1 = p
    · have h1 : ((search_single_file psearch (joinSegs rc.1) rc.2).filter
          (fun m => m.path == p)).length ≤ 101 :=
        le_trans ((List.filter_sublist _).length_le) (search_single_file_le _ _ _)
      have h2 : ((rest.map
          (fun rc => search_single_file psearch (joinSegs rc.1) rc.2)).flatten.filter
          (fun m => m.path == p)).length = 0 := by
        rw [List.length_eq_zero, List.filter_eq_nil_iff]
        intro m hm
        have := mem_flatten_path psearch rest hm
        simp only [beq_iff_eq]
        intro hmp
        rw [hmp, ← hp] at this
        exact hnd.1 this
      omega
    · have h1 : ((search_single_file psearch (joinSegs rc.1) rc.2).filter
          (fun m => m.path == p)).length = 0 := by
        rw [List.length_eq_zero, List.filter_eq_nil_iff]
        intro m hm
        rw [search_single_file_path psearch _ _ hm]
        simpa using hp
      have h2 := ih p hnd.2
      omega

/-- C3 (amended): a single file contributes at most 101 matches to the
result of `global_search` — the per-file loop breaks only after the append
that brings its local count to 101 — provided the candidate files have
pairwise distinct relative paths (true of any real directory tree). -/
theorem c3_per_file_cap (psearch : String → Bool) (fnm : String → String → Bool)
    (inclS exclS : String) (f : FS) (p : String)
    (hnd : ((collectCandidates
        (searchFileOK fnm (parsePatterns inclS) (parsePatterns exclS)) f).map
        (fun rc => joinSegs rc.1)).Nodup) :
    ((global_search psearch fnm inclS exclS f).filter
      (fun m => m.path == p)).length ≤ 101 := by
  unfold global_search global_search_run
  obtain ⟨k, hk⟩ := aggregateResults_flatten
    ((collectCandidates (searchFileOK fnm (parsePatterns inclS) (parsePatterns exclS)) f).map
      (fun rc => search_single_file psearch (joinSegs rc.1) rc.2)) []
  have hsub : List.Sublist
      ((aggregateResults
        ((collectCandidates (searchFileOK fnm (parsePatterns inclS) (parsePatterns exclS)) f).map
          (fun rc => search_single_file psearch (joinSegs rc.1) rc.2)) []).take 2000)
      ((collectCandidates (searchFileOK fnm (parsePatterns inclS) (parsePatterns exclS)) f).map
        (fun rc => search_single_file psearch (joinSegs rc.1) rc.2)).flatten := by
    refine (List.take_sublist _ _).trans ?_
    rw [hk]
    simp only [List.nil_append]
    have : ∀ (L : List (List SMatch)) (k : Nat),
        List.Sublist (L.take k).flatten L.flatten := by
      intro L k
      conv_rhs => rw [← List.take_append_drop k L]
      rw [List.flatten_append]
      exact List.sublist_append_left _ _
    exact this _ k
  exact le_trans ((hsub.filter _).length_le) (filter_path_flatten_le psearch _ p hnd)

/-- Witness for C3 (amended) on the concrete one-file tree. -/
theorem c3_witness :
    ((global_search (containsLit "foo") (fun _ _ => false) "" "" c3fs).filter
      (fun m => m.path == "a.txt")).length ≤ 101 :=
  c3_per_file_cap (containsLit "foo") (fun _ _ => false) "" "" c3fs "a.txt" (by decide)

set_option maxRecDepth 20000 in
/-- Counterexample to C3 as stated: a file of 101 matching lines yields 101
matches for that single file (the per-file loop breaks only after the
append that exceeds 100). -/
theorem c3_counterexample :
    ((global_search (containsLit "foo") (fun _ _ => false) "" "" c3fs).filter
      (fun m => m.path == "a.txt")).length = 101 := by
  decide

theorem mem_fileRecs (ok : List String → String → Bool) :
    ∀ (f : FS) (r : List String) {rc : List String × String},
      rc ∈ fileRecs ok r f → ∃ n ct, rc = (r ++ [n], ct) ∧ ok r n = true := by
  intro f
  induction f with
  | nil => intro r rc h; simp [fileRecs] at h
  | file n sz ct rest ih =>
    intro r rc h
    rw [fileRecs] at h
    by_cases hok : ok r n = true
    · rw [if_pos hok] at h
      rcases List.mem_append.mp h with h1 | h2
      · exact ⟨n, ct, (List.mem_singleton.mp h1), hok⟩
      · exact ih r h2
    · rw [if_neg hok] at h
      simpa using ih r (by simpa using h)
  | dir n cs rest ihc ihr =>
    intro r rc h
    exact ihr r (by simpa [fileRecs] using h)

theorem mem_collectKids (ok : List String → String → Bool) :
    ∀ (f : FS) (r : List String) {rc : List String × String},
      rc ∈ collectKids ok r f →
      ∃ r' n ct, rc = (r' ++ [n], ct) ∧ ok r' n = true := by
  intro f
  induction f with
  | nil => intro r rc h; simp [collectKids] at h
  | file n sz ct rest ih =>
    intro r rc h
    exact ih r (by simpa [collectKids] using h)
  | dir n cs rest ihc ihr =>
    intro r rc h
    rw [collectKids] at h
    by_cases hk : dir_keep false n = true
    · rw [if_pos hk] at h
      simp only [List.append_assoc, List.mem_append] at h
      rcases h with h1 | h2 | h3
      · obtain ⟨n', ct', heq, hok⟩ := mem_fileRecs ok cs (r ++ [n]) h1
        exact ⟨r ++ [n], n', ct', heq, hok⟩
      · exact ihc (r ++ [n]) h2
      · exact ihr r h3
    · rw [if_neg hk] at h
      exact ihr r h

theorem mem_collectCandidates (ok : List String → String → Bool)
    {f : FS} {rc : List String × String} (h : rc ∈ collectCandidates ok f) :
    ∃ r' n ct, rc = (r' ++ [n], ct) ∧ ok r' n = true := by
  rcases List.mem_append.mp h with h1 | h2
  · obtain ⟨n, ct, heq, hok⟩ := mem_fileRecs ok f [] h1
    exact ⟨[], n, ct, heq, hok⟩
  · exact mem_collectKids ok f [] h2

theorem replaceFileOK_not_protected {fnm : String → String → Bool}
    {incl excl : List String} {r : List String} {n : String}
    (h : replaceFileOK fnm incl excl r n = true) :
    joinSegs (r ++ [n]) ∉ PROTECTED_PATHS := by
  intro hmem
  unfold replaceFileOK at h
  have : PROTECTED_PATHS.contains (joinSegs (r ++ [n])) = true := by
    simpa [List.contains, List.elem_eq_mem] using hmem
  rw [this] at h
  simp at h

theorem allFiles_applyWrites (g : List String → String → String) :
    ∀ (f : FS) (r : List String),
      allFiles r (applyWrites g r f)
        = (allFiles r f).map (fun pc => (pc.1, g pc.1 pc.2)) := by
  intro f
  induction f with
  | nil => intro r; rfl
  | file n sz ct rest ih =>
    intro r
    rw [applyWrites, allFiles, allFiles, ih r, List.map_cons]
  | dir n cs rest ihc ihr =>
    intro r
    rw [applyWrites, allFiles, allFiles, ihc (r ++ [n]), ihr r, List.map_append]

/-- C9 (amended): a file whose whole relative path is in `PROTECTED_PATHS`
is never a candidate of `global_replace` — so it contributes nothing to
`files_updated` — and its content survives the operation unchanged,
regardless of how many matches the pattern has in it.  (Files that are
merely protected in the `_is_protected` sense because their FIRST segment
matches a protected name are not skipped by `global_replace`; see the
counterexample.) -/
theorem c9_protected_file_untouched (psearchC : String → Bool)
    (psubn : String → String × Nat) (fnm : String → String → Bool)
    (inclS exclS : String) (f : FS) (r : List String) (ct : String)
    (hf : (r, ct) ∈ allFiles [] f)
    (hp : joinSegs r ∈ PROTECTED_PATHS) :
    (r, ct) ∈ allFiles [] (global_replace psearchC psubn fnm inclS exclS f).2
    ∧ r ∉ (collectCandidates
        (replaceFileOK fnm (parsePatterns inclS) (parsePatterns exclS)) f).map
        (fun rc => rc.1) := by
  have hnot : r ∉ (collectCandidates
      (replaceFileOK fnm (parsePatterns inclS) (parsePatterns exclS)) f).map
      (fun rc => rc.1) := by
    intro hmem
    rcases List.mem_map.mp hmem with ⟨rc, hrc, hrc1⟩
    obtain ⟨r', n, ct', heq, hok⟩ := mem_collectCandidates _ hrc
    apply replaceFileOK_not_protected hok
    rw [heq] at hrc1
    simp only at hrc1
    rw [hrc1]
    exact hp
  refine ⟨?_, hnot⟩
  unfold global_replace
  simp only []
  rw [allFiles_applyWrites]
  have hcont : ((collectCandidates
      (replaceFileOK fnm (parsePatterns inclS) (parsePatterns exclS)) f).map
      (fun rc => rc.1)).contains r = false := by
    rw [← Bool.not_eq_true]
    intro hc
    exact hnot (by simpa [List.contains, List.elem_eq_mem] using hc)
  refine List.mem_map.mpr ⟨(r, ct), hf, ?_⟩
  simp only [hcont, Bool.false_and, Bool.if_false_left]
  simp

/-- Witness for C9 (amended): `secrets.yaml` full of matches is not touched. -/
theorem c9_witness :
    ((["secrets.yaml"], "foo") ∈ allFiles []
      (global_replace (containsLit "foo") (subnLit "foo" "bar") (fun _ _ => false)
        "" "" (.file "secrets.yaml" 0 "foo" .nil)).2)
    ∧ ["secrets.yaml"] ∉ ((collectCandidates
        (replaceFileOK (fun _ _ => false) (parsePatterns "") (parsePatterns ""))
        (.file "secrets.yaml" 0 "foo" .nil)).map (fun rc => rc.1)) :=
  c9_protected_file_untouched (containsLit "foo") (subnLit "foo" "bar")
    (fun _ _ => false) "" "" (.file "secrets.yaml" 0 "foo" .nil)
    ["secrets.yaml"] "foo" (by decide) (by decide)

/-- Counterexample to C9 as stated: `configuration.yaml/x.yaml` is a
protected path in the `_is_protected` sense (its first segment matches),
yet `global_replace` updates that file — the engine only skips files whose
WHOLE relative path is in `PROTECTED_PATHS`. -/
theorem c9_counterexample :
    is_protected "configuration.yaml/x.yaml" = true
    ∧ (global_replace (containsLit "foo") (subnLit "foo" "bar")
        (fun _ _ => false) "" "" c9fs).1.1 = 1
    ∧ (global_replace (containsLit "foo") (subnLit "foo" "bar")
        (fun _ _ => false) "" "" c9fs).2
      = .dir "configuration.yaml" (.file "x.yaml" 0 "bar" .nil) .nil := by
  refine ⟨by decide, by decide, by decide⟩

theorem delete_decision_removed_ne_root (resolveFn : List String → List String)
    (root : List String) (existsFn : List String → Bool) (path : String)
    {t : List String} (h : (delete_decision resolveFn root existsFn path).2 = some t) :
    t ≠ root := by
  unfold delete_decision at h
  by_cases hp : is_protected path = true
  · rw [if_pos hp] at h
    simp at h
  · rw [if_neg hp] at h
    cases hs : get_safe_path resolveFn root path with
    | none => rw [hs] at h; simp at h
    | some sp =>
      rw [hs] at h
      dsimp only [] at h
      by_cases hc : (!(existsFn sp) || sp = root) = true
      · rw [if_pos hc] at h
        simp at h
      · rw [if_neg hc] at h
        simp only [Option.some.injEq] at h
        subst h
        intro hteq
        exact hc (by simp [hteq])

/-- C10: a path that canonicalizes to the sandbox root itself is never
deleted: `delete` answers with an error (protected or not-found) and removes
nothing, and no item of `delete_multi` ever removes the root. -/
theorem c10_root_never_deleted (resolveFn : List String → List String)
    (root : List String) (existsFn : List String → Bool) (path : String)
    (h : resolveFn (joinedPath root path) = root) :
    (delete_decision resolveFn root existsFn path).1 ≠ DelOutcome.success
    ∧ (delete_decision resolveFn root existsFn path).2 = none
    ∧ ∀ (existsFn2 : List String → Bool) (paths : List String),
        root ∉ delete_multi_removals resolveFn root existsFn2 paths := by
  have hmulti : ∀ (existsFn2 : List String → Bool) (paths : List String),
      root ∉ delete_multi_removals resolveFn root existsFn2 paths := by
    intro ef2 paths hmem
    unfold delete_multi_removals at hmem
    rcases List.mem_filterMap.mp hmem with ⟨p, -, hp⟩
    exact delete_decision_removed_ne_root resolveFn root ef2 p hp rfl
  have hout : delete_decision resolveFn root existsFn path = (DelOutcome.denied, none)
      ∨ delete_decision resolveFn root existsFn path = (DelOutcome.notFound, none) := by
    unfold delete_decision
    by_cases hp : is_protected path = true
    · rw [if_pos hp]
      exact Or.inl rfl
    · rw [if_neg hp]
      have hsafe : get_safe_path resolveFn root path = some root := by
        unfold get_safe_path is_path_safe
        rw [h]
        rw [if_pos (List.isPrefixOf_iff_prefix.mpr (List.prefix_refl root))]
      rw [hsafe]
      dsimp only []
      rw [if_pos (by simp)]
      exact Or.inr rfl
  rcases hout with h1 | h1
  · exact ⟨by rw [h1]; decide, by rw [h1], hmulti⟩
  · exact ⟨by rw [h1]; decide, by rw [h1], hmulti⟩

/-- Witness for C10: the path `sub/..` canonicalizes back to the root and is
refused by both operations. -/
theorem c10_witness :
    (delete_decision resolveLexical ["config"] (fun _ => true) "sub/..").1
        ≠ DelOutcome.success
    ∧ (delete_decision resolveLexical ["config"] (fun _ => true) "sub/..").2 = none
    ∧ ∀ (existsFn2 : List String → Bool) (paths : List String),
        ["config"] ∉ delete_multi_removals resolveLexical ["config"] existsFn2 paths :=
  c10_root_never_deleted resolveLexical ["config"] (fun _ => true) "sub/.." (by decide)

end HassCM
